import Mathlib

/-!
Shallow embedding of `src/DistanceVector.py`, a round-based simulation of the
Distance-Vector routing protocol without poisoned reverse.

Python dictionaries are modelled as association lists (`List (key × value)`)
whose order mirrors dict insertion order; assigning to a key updates the first
matching entry in place or appends a fresh entry at the end, exactly as a
Python dict does.  Costs are integers or the infinity sentinel (`math.inf` in
the source).  All `print` calls of the source are pure output and mutate no
state, so they are omitted.  Lookups that would raise `KeyError` in Python are
totalised with an `UNREACHABLE` / no-op default; those defaults are never hit
in the configurations the program constructs.
-/

namespace DV

/-- A link/route cost: a finite integer or the `math.inf` sentinel. -/
inductive Cost where
  | fin (n : Int)
  | inf
  deriving DecidableEq, Repr

/-- Python `<` on costs: `inf` compares greater than every finite value and
`inf < inf` is false. -/
def cLt : Cost → Cost → Bool
  | Cost.fin a, Cost.fin b => a < b
  | Cost.fin _, Cost.inf => true
  | Cost.inf, _ => false

/-- Python `min` over a list of costs (first-minimum semantics coincide with
value semantics here).  `min([])` raises in Python; we return `inf`, a case
the program never reaches (rows are nonempty whenever `min` is called). -/
def cMinList : List Cost → Cost
  | [] => Cost.inf
  | c :: cs => cs.foldl (fun m x => if cLt x m then x else m) c

/-- Dict assignment `d[k] = v`: overwrite the first entry with key `k`,
or append the pair when the key is absent. -/
def listSet {α : Type} (l : List (String × α)) (k : String) (v : α) :
    List (String × α) :=
  if l.any (fun p => p.1 = k) then
    l.map (fun p => (p.1, if p.1 = k then v else p.2))
  else
    l ++ [(k, v)]

/-- A row of a distance table: via-neighbour ↦ cost. -/
abbrev Row := List (String × Cost)

/-- A distance table: destination ↦ row. -/
abbrev DTable := List (String × Row)

/-- Look a destination row up, `{}` default (`KeyError` is unreachable). -/
def dtRow (dt : DTable) (d : String) : Row :=
  (dt.lookup d).getD []

/-- `dt[d][v]`, with `inf` default for missing keys (never hit in program
states, where the shape is fixed). -/
def dtGet (dt : DTable) (d v : String) : Cost :=
  ((dtRow dt d).lookup v).getD Cost.inf

/-- `class Graph`: adjacency structure `adj_list`, a dict of dicts. -/
structure Graph where
  adj_list : List (String × List (String × Cost))
  deriving DecidableEq, Repr

/-- `Graph()`. -/
def Graph.empty : Graph := ⟨[]⟩

/-- `Graph.add_node`: insert an empty adjacency row if absent. -/
def Graph.add_node (g : Graph) (node : String) : Graph :=
  if (g.adj_list.lookup node).isSome then g
  else ⟨g.adj_list ++ [(node, [])]⟩

/-- `adj_list[a][b] = c` for a present outer key `a` (in `add_edge` the key
was just inserted, so the Python `KeyError` cannot occur). -/
def Graph.adjSet (g : Graph) (a b : String) (c : Cost) : Graph :=
  ⟨g.adj_list.map (fun p => (p.1, if p.1 = a then listSet p.2 b c else p.2))⟩

/-- `Graph.add_edge`: register both nodes, then set the cost both ways. -/
def Graph.add_edge (g : Graph) (node1 node2 : String) (cost : Cost) : Graph :=
  (((g.add_node node1).add_node node2).adjSet node1 node2 cost).adjSet
    node2 node1 cost

/-- `adj_list.get(a, {}).get(b, INF)`. -/
def Graph.adjGet (g : Graph) (a b : String) : Cost :=
  (((g.adj_list.lookup a).getD []).lookup b).getD Cost.inf

/-- `adj_list.get(a, {}).get(b)` as an option (key presence). -/
def Graph.adjFind (g : Graph) (a b : String) : Option Cost :=
  ((g.adj_list.lookup a).getD []).lookup b

/-- `Graph.get_neighbors`: keys of `adj_list.get(node, {})`. -/
def Graph.get_neighbors (g : Graph) (node : String) : List String :=
  ((g.adj_list.lookup node).getD []).map Prod.fst

/-- `del adj_list[a][b]` (removes the entry when present). -/
def Graph.adjDel (g : Graph) (a b : String) : Graph :=
  ⟨g.adj_list.map (fun p =>
    (p.1, if p.1 = a then p.2.filter (fun q => q.1 ≠ b) else p.2))⟩

/-- `class Router`: one node agent. -/
structure Router where
  name : String
  distance_table : DTable
  routing_table : List (String × (Cost × String))
  updates_to_process : List (String × DTable)
  update_neighbors : Bool
  deriving DecidableEq, Repr

/-- `Router(name)`. -/
def Router.mk0 (name : String) : Router :=
  ⟨name, [], [], [], false⟩

/-- `Router.initialize_distance_table`: rows for every other node, all `INF`.
Built with dict-assignment folds so duplicate declarations collapse exactly
as Python dict keys do. -/
def Router.initialize_distance_table (r : Router) (nodes : List String) :
    Router :=
  let ns := nodes.filter (fun n => n ≠ r.name)
  let row : Row := ns.foldl (fun acc n => listSet acc n Cost.inf) []
  { r with distance_table :=
      ns.foldl (fun acc d => listSet acc d row) r.distance_table }

/-- `dt[d][v] = c` (outer key assumed present; `KeyError` unreachable). -/
def dtSet (dt : DTable) (d v : String) (c : Cost) : DTable :=
  dt.map (fun p => (p.1, if p.1 = d then listSet p.2 v c else p.2))

/-- `Router.update_self`: record direct link costs on the diagonal and force
all via-columns of non-neighbours to `INF`; mark dirty unconditionally. -/
def Router.update_self (g : Graph) (routers : List Router) (r : Router) :
    Router :=
  let neighbors := g.get_neighbors r.name
  let dt1 := neighbors.foldl
    (fun dt nb => dtSet dt nb nb (g.adjGet r.name nb)) r.distance_table
  let dt2 := routers.foldl
    (fun dt router =>
      if neighbors.contains router.name ∨ router.name = r.name then dt
      else dt.map (fun p => (p.1, listSet p.2 router.name Cost.inf)))
    dt1
  { r with distance_table := dt2, update_neighbors := true }

/-- Lexicographic code-point comparison of character lists: Python `<=` on
strings. -/
def charsLe : List Char → List Char → Bool
  | [], _ => true
  | _ :: _, [] => false
  | c :: cs, d :: ds =>
    if c.toNat < d.toNat then true
    else if d.toNat < c.toNat then false
    else charsLe cs ds

/-- Python `<=` on strings (code-point lexicographic order). -/
def strLe (a b : String) : Bool :=
  charsLe a.data b.data

/-- Sort a row by via key, mirroring `sorted(self.distance_table[dest])`
(Python `sorted` is a stable sort; rows have distinct keys in every program
state, so any stable comparison sort models it). -/
def sortRow (row : Row) : Row :=
  row.insertionSort (fun a b => strLe a.1 b.1 = true)

/-- One via of the `create_routing_table` scan: keep the entry on a strict
improvement (`<`) of the running minimum. -/
def rtStep (acc : Cost × String) (p : String × Cost) : Cost × String :=
  if cLt p.2 acc.1 then (p.2, p.1) else acc

/-- The routing-table entry of one row: fold over vias in sorted order,
starting from `(INF, 'INF')`. -/
def rtRow (row : Row) : Cost × String :=
  (sortRow row).foldl rtStep (Cost.inf, "INF")

/-- `Router.create_routing_table`: rebuild the routing table wholesale from
the current distance table. -/
def Router.create_routing_table (r : Router) : Router :=
  { r with routing_table :=
      r.distance_table.map (fun p => (p.1, rtRow p.2)) }

/-- The relaxation value written for destination `dest` when processing a
message `(source, table)`:
`cost_to_source + min(table[dest].values())` unless either is `INF`. -/
def relaxCost (dt : DTable) (source : String) (table : DTable)
    (dest : String) : Cost :=
  let cost_to_source := dtGet dt source source
  let min_cost := cMinList ((dtRow table dest).map Prod.snd)
  match cost_to_source, min_cost with
  | Cost.fin a, Cost.fin b => Cost.fin (a + b)
  | _, _ => Cost.inf

/-- The row of destination `dest` after a message `(source, table)`: rows of
the source itself are skipped, and in every other row only the via-column
`source` is touched, taking the relaxation value (writing only on change is
observationally the write of the value). -/
def relaxRow (dt : DTable) (source : String) (table : DTable)
    (dest : String) (row : Row) : Row :=
  if dest = source then row
  else row.map (fun q =>
    (q.1, if q.1 = source then relaxCost dt source table dest else q.2))

/-- Process one `(source, table)` message against a distance table. -/
def processMsg (dt : DTable) (msg : String × DTable) : DTable :=
  dt.map (fun p => (p.1, relaxRow dt msg.1 msg.2 p.1 p.2))

/-- One mailbox step of `process_received_tables`: apply the message and set
the dirty flag when anything changed. -/
def receiveStep (p : DTable × Bool) (msg : String × DTable) : DTable × Bool :=
  let dt := processMsg p.1 msg
  (dt, p.2 || decide (dt ≠ p.1))

/-- `Router.process_received_tables`: fold the pending messages in arrival
order.  Note the source never clears `updates_to_process` here. -/
def Router.process_received_tables (r : Router) : Router :=
  let p := r.updates_to_process.foldl receiveStep
    (r.distance_table, r.update_neighbors)
  { r with distance_table := p.1, update_neighbors := p.2 }

/-- `Router.process_after_update`: snapshot the table, drop the mailbox,
reset every via-column to the live direct-link cost (or `INF` for
non-neighbours), and mark dirty when the table changed. -/
def Router.process_after_update (g : Graph) (r : Router) : Router :=
  let neighbors := g.get_neighbors r.name
  let dt := r.distance_table.map (fun p =>
    (p.1, p.2.map (fun q =>
      (q.1, if neighbors.contains q.1 then
              let cost_to_via := g.adjGet r.name q.1
              if cost_to_via ≠ Cost.inf then cost_to_via else Cost.inf
            else Cost.inf))))
  { r with distance_table := dt,
           updates_to_process := [],
           update_neighbors :=
             if dt ≠ r.distance_table then true else r.update_neighbors }

/-- `Router.send_updates` for the router at index `i`: skip when clean,
otherwise rebuild its routing table, deep-copy its distance table into every
neighbouring router's mailbox, and clear the flag. -/
def sendFrom (g : Graph) (rs : List Router) (i : Nat) : List Router :=
  match rs.get? i with
  | none => rs
  | some sender =>
    if sender.update_neighbors then
      let neighbors := g.get_neighbors sender.name
      let msg := (sender.name, sender.distance_table)
      rs.enum.map (fun ji =>
        let r1 := if ji.1 = i then
            { ji.2.create_routing_table with update_neighbors := false }
          else ji.2
        if neighbors.contains r1.name then
          { r1 with updates_to_process := r1.updates_to_process ++ [msg] }
        else r1)
    else rs

/-- The broadcast phase: every router sends, in list order. -/
def broadcastPhase (g : Graph) (rs : List Router) : List Router :=
  (List.range rs.length).foldl (sendFrom g) rs

/-- The receive phase: every router drains (but does not clear) its mailbox;
`process_received_tables` touches only the router itself. -/
def receivePhase (rs : List Router) : List Router :=
  rs.map Router.process_received_tables

/-- One full round: all broadcast, then all receive. -/
def doRound (g : Graph) (rs : List Router) : List Router :=
  receivePhase (broadcastPhase g rs)

/-- `any(router.update_neighbors for router in routers)`. -/
def anyDirty (rs : List Router) : Bool :=
  rs.any (fun r => r.update_neighbors)

/-- Graph construction in `main`: declared nodes first, then every edge whose
cost is not `INF` (`-1` lines are skipped at build time). -/
def buildGraph (nodes : List String)
    (edges : List (String × String × Cost)) : Graph :=
  let g := nodes.foldl Graph.add_node Graph.empty
  edges.foldl
    (fun g e => if e.2.2 ≠ Cost.inf then g.add_edge e.1 e.2.1 e.2.2 else g) g

/-- Router construction in `main`: one router per declared node, each given
its initial distance table and seeded from the topology. -/
def initRouters (g : Graph) (nodes : List String) : List Router :=
  let rs0 := nodes.map Router.mk0
  rs0.map (fun r => Router.update_self g rs0 (r.initialize_distance_table nodes))

/-- The `#INITIAL` loop of `main`, unrolled: `while any(dirty): t += 1;
broadcast; receive; if t >= 2: break`.  The `t >= 2` cap bounds it to two
iterations; the returned value is the final `t` with the final routers. -/
def initialConverge (g : Graph) (rs : List Router) : Nat × List Router :=
  if anyDirty rs then
    let rs1 := doRound g rs
    if anyDirty rs1 then (2, doRound g rs1) else (1, rs1)
  else (0, rs)

/-- One `UPDATE` line applied to the topology: cost `INF` removes the link in
both directions when `node2` is a key of `adj_list.get(node1)` (a no-op
otherwise); any other cost is a plain `add_edge`. -/
def applyUpdate (g : Graph) (u : String × String × Cost) : Graph :=
  if u.2.2 = Cost.inf then
    if (g.adjFind u.1 u.2.1).isSome then
      (g.adjDel u.1 u.2.1).adjDel u.2.1 u.1
    else g
  else g.add_edge u.1 u.2.1 u.2.2

/-- All `UPDATE` lines, in order. -/
def applyUpdates (g : Graph) (us : List (String × String × Cost)) : Graph :=
  us.foldl applyUpdate g

/-- The `#UPDATE` section of `main` after the topology mutation: reset every
router, one unconditional round, then the `while any(dirty) and
iteration < 2` loop, unrolled to its two bounded iterations. -/
def postUpdate (g2 : Graph) (rs : List Router) : List Router :=
  let rs1 := rs.map (Router.process_after_update g2)
  let rs2 := doRound g2 rs1
  if anyDirty rs2 then
    let rs3 := doRound g2 rs2
    if anyDirty rs3 then doRound g2 rs3 else rs3
  else rs2

/-- `routing_table[dest]` of the router named `n` in `rs` (first match). -/
def rtOf (rs : List Router) (n dest : String) : Option (Cost × String) :=
  match rs.find? (fun r => r.name = n) with
  | none => none
  | some r => r.routing_table.lookup dest

/-- The distance table of the router named `n` in `rs`. -/
def dtOf (rs : List Router) (n : String) : DTable :=
  match rs.find? (fun r => r.name = n) with
  | none => []
  | some r => r.distance_table

/-! ### Association-list lemmas -/

theorem lookup_cons_self {α : Type} {k : String} {v : α} {t : List (String × α)} :
    List.lookup k ((k, v) :: t) = some v := by
  simp [List.lookup]

theorem lookup_cons_ne {α : Type} {p : String × α} {t : List (String × α)}
    {k : String} (h : k ≠ p.1) : List.lookup k (p :: t) = List.lookup k t := by
  obtain ⟨a, b⟩ := p
  simp only [List.lookup]
  rw [beq_eq_false_iff_ne.mpr h]

theorem lookup_map_keyfix {α β : Type} (f : String → α → β)
    (l : List (String × α)) (k : String) :
    (l.map (fun p => (p.1, f p.1 p.2))).lookup k = (l.lookup k).map (f k) := by
  induction l with
  | nil => rfl
  | cons p t ih =>
    by_cases h : k = p.1
    · obtain ⟨a, b⟩ := p
      subst h
      rw [List.map_cons, lookup_cons_self, lookup_cons_self]
      rfl
    · rw [List.map_cons,
        @lookup_cons_ne β (p.1, f p.1 p.2) (t.map (fun p => (p.1, f p.1 p.2))) k h,
        lookup_cons_ne h, ih]

theorem lookup_eq_none_of_not_mem_keys {α : Type} {l : List (String × α)}
    {k : String} (h : k ∉ l.map Prod.fst) : l.lookup k = none := by
  induction l with
  | nil => rfl
  | cons p t ih =>
    have hk : k ≠ p.1 := fun he => h (by simp [he])
    simp only [List.map_cons, List.mem_cons, not_or] at h
    rw [lookup_cons_ne hk, ih h.2]

theorem lookup_eq_some_of_mem_nodup {α : Type} {l : List (String × α)}
    {k : String} {v : α} (hnd : (l.map Prod.fst).Nodup) (hm : (k, v) ∈ l) :
    l.lookup k = some v := by
  induction l with
  | nil => simp at hm
  | cons p t ih =>
    simp only [List.map_cons, List.nodup_cons] at hnd
    obtain ⟨hnotin, hndt⟩ := hnd
    rcases List.mem_cons.mp hm with h | h
    · rw [← h, lookup_cons_self]
    · have hk : k ≠ p.1 := by
        intro he
        exact hnotin (he ▸ List.mem_map.mpr ⟨(k, v), h, rfl⟩)
      rw [lookup_cons_ne hk]
      exact ih hndt h

theorem lookup_isSome_of_mem_keys {α : Type} {l : List (String × α)}
    {k : String} (h : k ∈ l.map Prod.fst) : ∃ v, l.lookup k = some v := by
  induction l with
  | nil => simp at h
  | cons p t ih =>
    by_cases hk : k = p.1
    · obtain ⟨a, b⟩ := p
      subst hk
      exact ⟨b, lookup_cons_self⟩
    · rw [List.map_cons] at h
      rcases List.mem_cons.mp h with h1 | h1
      · exact absurd h1 hk
      · rcases ih h1 with ⟨v, hv⟩
        exact ⟨v, by rw [lookup_cons_ne hk, hv]⟩

theorem assoc_eq_of_lookup_eq {α : Type} :
    ∀ {l1 l2 : List (String × α)}, l1.map Prod.fst = l2.map Prod.fst →
      (l1.map Prod.fst).Nodup → (∀ k, l1.lookup k = l2.lookup k) → l1 = l2 := by
  intro l1
  induction l1 with
  | nil =>
    intro l2 hk _ _
    exact (List.map_eq_nil_iff.mp hk.symm).symm
  | cons p t ih =>
    intro l2 hk hnd hl
    cases l2 with
    | nil => simp at hk
    | cons p2 t2 =>
      simp only [List.map_cons, List.cons.injEq] at hk
      obtain ⟨hhead, hkt⟩ := hk
      simp only [List.map_cons, List.nodup_cons] at hnd
      obtain ⟨hnotin, hndt⟩ := hnd
      have hval : p.2 = p2.2 := by
        have h1 := hl p.1
        obtain ⟨a, b⟩ := p
        obtain ⟨a2, b2⟩ := p2
        simp only at hhead
        subst hhead
        rw [lookup_cons_self, lookup_cons_self] at h1
        simpa using h1
      have htail : t = t2 := by
        refine ih hkt hndt (fun k => ?_)
        by_cases hkp : k = p.1
        · subst hkp
          rw [lookup_eq_none_of_not_mem_keys hnotin,
              lookup_eq_none_of_not_mem_keys (hkt ▸ hnotin)]
        · have h1 := hl k
          rwa [lookup_cons_ne hkp, lookup_cons_ne (hhead ▸ hkp)] at h1
      have hp : p = p2 := by
        obtain ⟨a, b⟩ := p
        obtain ⟨a2, b2⟩ := p2
        simp_all
      rw [hp, htail]

/-! ### The cost order -/

theorem cLt_irrefl (a : Cost) : cLt a a = false := by
  cases a <;> simp [cLt]

theorem cLt_asymm {a b : Cost} (h : cLt a b = true) : cLt b a = false := by
  cases a <;> cases b <;> simp_all [cLt] <;> omega

theorem cLt_connex {a b : Cost} (h1 : cLt a b = false)
    (h2 : cLt b a = false) : a = b := by
  cases a <;> cases b <;> simp_all [cLt] <;> omega

theorem cLe_trans {a b c : Cost} (h1 : cLt a b = false)
    (h2 : cLt b c = false) : cLt a c = false := by
  cases a <;> cases b <;> cases c <;> simp_all [cLt] <;> omega

/-! ### The routing-table scan -/

/-- The running minimum of the row scan, seeded with `c0`. -/
def vMin (l : Row) (c0 : Cost) : Cost :=
  l.foldl (fun m q => if cLt q.2 m then q.2 else m) c0

theorem vMin_cons (q : String × Cost) (t : Row) (c0 : Cost) :
    vMin (q :: t) c0 = vMin t (if cLt q.2 c0 then q.2 else c0) := rfl

theorem cLt_seed_vMin : ∀ (l : Row) (c0 : Cost), cLt c0 (vMin l c0) = false := by
  intro l
  induction l with
  | nil => intro c0; exact cLt_irrefl c0
  | cons q t ih =>
    intro c0
    rw [vMin_cons]
    by_cases h : cLt q.2 c0 = true
    · rw [if_pos h]
      exact cLe_trans (cLt_asymm h) (ih q.2)
    · rw [if_neg h]
      exact ih c0

theorem cMinList_eq_vMin (l : Row) : cMinList (l.map Prod.snd) = vMin l Cost.inf := by
  cases l with
  | cons q t =>
    have hseed : (if cLt q.2 Cost.inf then q.2 else Cost.inf) = q.2 := by
      cases hq : q.2 <;> simp [cLt]
    simp [cMinList, vMin, List.foldl_map, hseed]
  | nil => rfl

theorem rtFold_spec : ∀ (l : Row) (c0 : Cost) (h0 : String),
    (l.foldl rtStep (c0, h0)).1 = vMin l c0
    ∧ ((l.foldl rtStep (c0, h0)).1 = c0 → l.foldl rtStep (c0, h0) = (c0, h0))
    ∧ ((l.foldl rtStep (c0, h0)).1 ≠ c0 →
        ∃ pre post,
          l = pre ++ ((l.foldl rtStep (c0, h0)).2, (l.foldl rtStep (c0, h0)).1) :: post
          ∧ ∀ q ∈ pre, q.2 ≠ (l.foldl rtStep (c0, h0)).1) := by
  intro l
  induction l with
  | nil =>
    intro c0 h0
    exact ⟨rfl, fun _ => rfl, fun h => absurd rfl h⟩
  | cons q t ih =>
    intro c0 h0
    rw [List.foldl_cons]
    by_cases himp : cLt q.2 c0 = true
    · have hstep : rtStep (c0, h0) q = (q.2, q.1) := by simp [rtStep, himp]
      rw [hstep]
      obtain ⟨ih1, ih2, ih3⟩ := ih q.2 q.1
      have hvm : vMin (q :: t) c0 = vMin t q.2 := by rw [vMin_cons, if_pos himp]
      have hne : (t.foldl rtStep (q.2, q.1)).1 ≠ c0 := by
        intro he
        have hle : cLt q.2 (t.foldl rtStep (q.2, q.1)).1 = false :=
          ih1 ▸ cLt_seed_vMin t q.2
        rw [he, himp] at hle
        simp at hle
      refine ⟨by rw [ih1, hvm], fun he => absurd he hne, fun _ => ?_⟩
      by_cases heq : (t.foldl rtStep (q.2, q.1)).1 = q.2
      · have h2 := ih2 heq
        refine ⟨[], t, ?_, by intro q2 hq2; simp at hq2⟩
        rw [h2]
        simp
      · obtain ⟨pre, post, hsplit, hpre⟩ := ih3 heq
        refine ⟨q :: pre, post, by rw [List.cons_append, ← hsplit], ?_⟩
        intro q2 hq2
        rcases List.mem_cons.mp hq2 with h1 | h1
        · rw [h1]
          exact fun he => heq he.symm
        · exact hpre q2 h1
    · have hstep : rtStep (c0, h0) q = (c0, h0) := by simp [rtStep, himp]
      rw [hstep]
      obtain ⟨ih1, ih2, ih3⟩ := ih c0 h0
      have hvm : vMin (q :: t) c0 = vMin t c0 := by rw [vMin_cons, if_neg himp]
      refine ⟨by rw [ih1, hvm], ih2, fun hne => ?_⟩
      obtain ⟨pre, post, hsplit, hpre⟩ := ih3 hne
      refine ⟨q :: pre, post, by rw [List.cons_append, ← hsplit], ?_⟩
      intro q2 hq2
      rcases List.mem_cons.mp hq2 with h1 | h1
      · rw [h1]
        intro he
        have hle : cLt c0 (t.foldl rtStep (c0, h0)).1 = false :=
          ih1 ▸ cLt_seed_vMin t c0
        have hq2c : cLt (t.foldl rtStep (c0, h0)).1 c0 = false := by
          rw [← he]
          simpa using himp
        exact hne (cLt_connex hq2c hle)
      · exact hpre q2 h1

/-! ### The string order and sorted rows -/

theorem charsLe_refl : ∀ l : List Char, charsLe l l = true := by
  intro l
  induction l with
  | nil => rfl
  | cons c cs ih => simp [charsLe, ih]

theorem strLe_refl (a : String) : strLe a a = true :=
  charsLe_refl a.data

theorem charsLe_total : ∀ l1 l2 : List Char,
    charsLe l1 l2 = true ∨ charsLe l2 l1 = true := by
  intro l1
  induction l1 with
  | nil => exact fun l2 => Or.inl rfl
  | cons c cs ih =>
    intro l2
    cases l2 with
    | nil => exact Or.inr rfl
    | cons d ds =>
      by_cases h1 : c.toNat < d.toNat
      · exact Or.inl (by simp [charsLe, h1])
      · by_cases h2 : d.toNat < c.toNat
        · exact Or.inr (by simp [charsLe, h2])
        · rcases ih ds with h | h
          · exact Or.inl (by simp [charsLe, h1, h2, h])
          · exact Or.inr (by simp [charsLe, h1, h2, h])

theorem strLe_total (a b : String) : strLe a b = true ∨ strLe b a = true :=
  charsLe_total a.data b.data

theorem charsLe_trans : ∀ l1 l2 l3 : List Char, charsLe l1 l2 = true →
    charsLe l2 l3 = true → charsLe l1 l3 = true := by
  intro l1
  induction l1 with
  | nil => intro l2 l3 _ _; rfl
  | cons a as ih =>
    intro l2 l3 h12 h23
    cases l2 with
    | nil => simp [charsLe] at h12
    | cons b bs =>
      cases l3 with
      | nil => simp [charsLe] at h23
      | cons c cs =>
        by_cases hab : a.toNat < b.toNat
        · by_cases hbc : b.toNat < c.toNat
          · simp [charsLe, Nat.lt_trans hab hbc]
          · by_cases hcb : c.toNat < b.toNat
            · simp [charsLe, hbc, hcb] at h23
            · have hac : a.toNat < c.toNat := by omega
              simp [charsLe, hac]
        · by_cases hba : b.toNat < a.toNat
          · simp [charsLe, hab, hba] at h12
          · by_cases hbc : b.toNat < c.toNat
            · have hac : a.toNat < c.toNat := by omega
              simp [charsLe, hac]
            · by_cases hcb : c.toNat < b.toNat
              · simp [charsLe, hbc, hcb] at h23
              · have h12a : charsLe as bs = true := by
                  simpa [charsLe, hab, hba] using h12
                have h23a : charsLe bs cs = true := by
                  simpa [charsLe, hbc, hcb] using h23
                have hac : ¬ a.toNat < c.toNat := by omega
                have hca : ¬ c.toNat < a.toNat := by omega
                simp [charsLe, hac, hca, ih bs cs h12a h23a]

theorem strLe_trans {a b c : String} (h1 : strLe a b = true)
    (h2 : strLe b c = true) : strLe a c = true :=
  charsLe_trans a.data b.data c.data h1 h2

theorem mem_sortRow {row : Row} {q : String × Cost} :
    q ∈ sortRow row ↔ q ∈ row :=
  (List.perm_insertionSort (fun a b => strLe a.1 b.1 = true) row).mem_iff

theorem sorted_sortRow (row : Row) :
    List.Sorted (fun a b : String × Cost => strLe a.1 b.1 = true)
      (sortRow row) := by
  haveI : IsTotal (String × Cost) (fun a b => strLe a.1 b.1 = true) :=
    ⟨fun a b => strLe_total a.1 b.1⟩
  haveI : IsTrans (String × Cost) (fun a b => strLe a.1 b.1 = true) :=
    ⟨fun a b c => strLe_trans⟩
  exact List.sorted_insertionSort (fun a b => strLe a.1 b.1 = true) row

/-! ### The minimum is permutation-blind -/

theorem vMin_min : ∀ (l : Row) (c0 : Cost), ∀ q ∈ l,
    cLt q.2 (vMin l c0) = false := by
  intro l
  induction l with
  | nil => intro c0 q hq; simp at hq
  | cons q0 t ih =>
    intro c0 q hq
    rw [vMin_cons]
    rcases List.mem_cons.mp hq with h | h
    · subst h
      by_cases himp : cLt q.2 c0 = true
      · rw [if_pos himp]
        exact cLt_seed_vMin t q.2
      · rw [if_neg himp]
        exact cLe_trans (by simpa using himp) (cLt_seed_vMin t c0)
    · exact ih _ q h

theorem vMin_mem : ∀ (l : Row) (c0 : Cost),
    vMin l c0 = c0 ∨ vMin l c0 ∈ l.map Prod.snd := by
  intro l
  induction l with
  | nil => exact fun c0 => Or.inl rfl
  | cons q t ih =>
    intro c0
    rw [vMin_cons]
    by_cases himp : cLt q.2 c0 = true
    · rw [if_pos himp]
      rcases ih q.2 with h | h
      · exact Or.inr (by simp [h])
      · exact Or.inr (by simp [h])
    · rw [if_neg himp]
      rcases ih c0 with h | h
      · exact Or.inl h
      · exact Or.inr (by simp [h])

theorem vMin_congr_mem {l1 l2 : Row} (c0 : Cost)
    (h : ∀ q : String × Cost, q ∈ l1 ↔ q ∈ l2) : vMin l1 c0 = vMin l2 c0 := by
  have key : ∀ l1a l2a : Row, (∀ q : String × Cost, q ∈ l1a → q ∈ l2a) →
      cLt (vMin l1a c0) (vMin l2a c0) = false := by
    intro l1a l2a hsub
    rcases vMin_mem l1a c0 with h1 | h1
    · rw [h1]
      exact cLt_seed_vMin l2a c0
    · rcases List.mem_map.mp h1 with ⟨q, hq, hq2⟩
      rw [← hq2]
      exact vMin_min l2a c0 q (hsub q hq)
  exact cLt_connex (key l1 l2 (fun q => (h q).mp)) (key l2 l1 (fun q => (h q).mpr))

/-- Full characterisation of one routing-table entry: the cost is the row
minimum; `INF` rows keep the `'INF'` next-hop marker; otherwise the next hop
achieves the minimum and is least (in string order) among the vias that do. -/
theorem rtRow_spec (row : Row) :
    (rtRow row).1 = cMinList (row.map Prod.snd)
    ∧ ((rtRow row).1 = Cost.inf → (rtRow row).2 = "INF")
    ∧ ((rtRow row).1 ≠ Cost.inf →
        ((rtRow row).2, (rtRow row).1) ∈ row
        ∧ ∀ q ∈ row, q.2 = (rtRow row).1 → strLe (rtRow row).2 q.1 = true) := by
  obtain ⟨h1, h2, h3⟩ := rtFold_spec (sortRow row) Cost.inf "INF"
  have hdef : rtRow row = (sortRow row).foldl rtStep (Cost.inf, "INF") := rfl
  have hmin : vMin (sortRow row) Cost.inf = cMinList (row.map Prod.snd) := by
    rw [cMinList_eq_vMin]
    exact vMin_congr_mem Cost.inf (fun q => mem_sortRow)
  refine ⟨by rw [hdef, h1, hmin], fun hinf => ?_, fun hne => ?_⟩
  · rw [hdef] at hinf ⊢
    rw [h2 hinf]
  · rw [hdef] at hne ⊢
    set res := (sortRow row).foldl rtStep (Cost.inf, "INF") with hres
    obtain ⟨pre, post, hsplit, hpre⟩ := h3 hne
    constructor
    · refine mem_sortRow.mp ?_
      rw [hsplit]
      exact List.mem_append.mpr (Or.inr (List.mem_cons.mpr (Or.inl rfl)))
    · intro q hq hval
      have hqs : q ∈ pre ++ (res.2, res.1) :: post := by
        rw [← hsplit]
        exact mem_sortRow.mpr hq
      rcases List.mem_append.mp hqs with hq1 | hq1
      · exact absurd hval (hpre q hq1)
      · rcases List.mem_cons.mp hq1 with hq2 | hq2
        · rw [hq2]
          exact strLe_refl _
        · have hsorted := sorted_sortRow row
          rw [hsplit] at hsorted
          have hs2 := (List.pairwise_append.mp hsorted).2.1
          exact (List.sorted_cons.mp hs2).1 q hq2

/-! ### Relaxation lemmas -/

theorem mem_of_lookup_eq_some {α : Type} {l : List (String × α)}
    {k : String} {v : α} (h : l.lookup k = some v) : (k, v) ∈ l := by
  induction l with
  | nil => simp [List.lookup] at h
  | cons p t ih =>
    by_cases hk : k = p.1
    · obtain ⟨a, b⟩ := p
      subst hk
      rw [lookup_cons_self] at h
      exact List.mem_cons.mpr (Or.inl (by simpa using h.symm))
    · rw [lookup_cons_ne hk] at h
      exact List.mem_cons.mpr (Or.inr (ih h))

theorem keys_map_keyfix {α β : Type} (f : String → α → β)
    (l : List (String × α)) :
    (l.map (fun p => (p.1, f p.1 p.2))).map Prod.fst = l.map Prod.fst := by
  rw [List.map_map]
  rfl

theorem dtRow_processMsg (dt : DTable) (m : String × DTable) (d : String) :
    dtRow (processMsg dt m) d = relaxRow dt m.1 m.2 d (dtRow dt d) := by
  unfold processMsg dtRow
  rw [lookup_map_keyfix (relaxRow dt m.1 m.2) dt d]
  cases h : dt.lookup d with
  | none =>
    by_cases hd : d = m.1 <;> simp [relaxRow, hd]
  | some row => rfl

theorem relaxRow_keys (dt : DTable) (src : String) (tb : DTable)
    (d : String) (row : Row) :
    (relaxRow dt src tb d row).map Prod.fst = row.map Prod.fst := by
  unfold relaxRow
  by_cases hd : d = src
  · rw [if_pos hd]
  · rw [if_neg hd]
    exact keys_map_keyfix (fun k c => if k = src then relaxCost dt src tb d else c) row

theorem dtGet_processMsg (dt : DTable) (m : String × DTable) (d v : String) :
    dtGet (processMsg dt m) d v =
      if d ≠ m.1 ∧ v = m.1 ∧ v ∈ (dtRow dt d).map Prod.fst
      then relaxCost dt m.1 m.2 d else dtGet dt d v := by
  unfold dtGet
  rw [dtRow_processMsg]
  unfold relaxRow
  by_cases hd : d = m.1
  · rw [if_pos hd, if_neg (by simp [hd])]
  · rw [if_neg hd]
    rw [lookup_map_keyfix (fun k c => if k = m.1 then relaxCost dt m.1 m.2 d else c)
      (dtRow dt d) v]
    by_cases hv : v = m.1
    · by_cases hmem : v ∈ (dtRow dt d).map Prod.fst
      · rcases lookup_isSome_of_mem_keys hmem with ⟨c, hc⟩
        rw [hc, if_pos ⟨hd, hv, hmem⟩]
        simp [hv]
      · rw [lookup_eq_none_of_not_mem_keys hmem, if_neg (by tauto)]
        rfl
    · rw [if_neg (by tauto)]
      cases hc : (dtRow dt d).lookup v with
      | none => rfl
      | some c => simp [hv]

theorem processMsg_ne_iff (dt : DTable) (m : String × DTable)
    (hnd : (dt.map Prod.fst).Nodup)
    (hrows : ∀ p ∈ dt, ((p.2 : Row).map Prod.fst).Nodup) :
    processMsg dt m ≠ dt ↔ ∃ d v, dtGet (processMsg dt m) d v ≠ dtGet dt d v := by
  constructor
  · intro hne
    by_contra hc
    push_neg at hc
    apply hne
    have hkeys : (processMsg dt m).map Prod.fst = dt.map Prod.fst :=
      keys_map_keyfix (fun k row => relaxRow dt m.1 m.2 k row) dt
    refine assoc_eq_of_lookup_eq hkeys (hkeys ▸ hnd) (fun k => ?_)
    cases hk : dt.lookup k with
    | none =>
      unfold processMsg
      rw [lookup_map_keyfix (relaxRow dt m.1 m.2) dt k, hk]
      rfl
    | some row =>
      unfold processMsg
      rw [lookup_map_keyfix (relaxRow dt m.1 m.2) dt k, hk]
      have hrownd : (row.map Prod.fst).Nodup := hrows (k, row) (mem_of_lookup_eq_some hk)
      have hrk : (relaxRow dt m.1 m.2 k row).map Prod.fst = row.map Prod.fst :=
        relaxRow_keys dt m.1 m.2 k row
    
      have hrow : relaxRow dt m.1 m.2 k row = row := by
        refine assoc_eq_of_lookup_eq hrk (hrk ▸ hrownd) (fun v => ?_)
        have hget := hc k v
        unfold dtGet at hget
        rw [dtRow_processMsg] at hget
        have hdtrow : dtRow dt k = row := by unfold dtRow; rw [hk]; rfl
        rw [hdtrow] at hget
        cases hl : (relaxRow dt m.1 m.2 k row).lookup v with
        | none =>
          have hnm : v ∉ row.map Prod.fst := by
            intro hmem
            rcases lookup_isSome_of_mem_keys (hrk ▸ hmem : v ∈ (relaxRow dt m.1 m.2 k row).map Prod.fst) with ⟨c, hcl⟩
            rw [hcl] at hl
            exact Option.noConfusion hl
          rw [lookup_eq_none_of_not_mem_keys hnm]
        | some c =>
          have hmem : v ∈ row.map Prod.fst := by
            have : v ∈ (relaxRow dt m.1 m.2 k row).map Prod.fst :=
              List.mem_map.mpr ⟨(v, c), mem_of_lookup_eq_some hl, rfl⟩
            rwa [hrk] at this
          rcases lookup_isSome_of_mem_keys hmem with ⟨c2, hc2⟩
          rw [hc2]
          rw [hl, hc2] at hget
          simpa using hget
      show some (relaxRow dt m.1 m.2 k row) = some row
      rw [hrow]
  · rintro ⟨d, v, h⟩ hne
    rw [hne] at h
    exact h rfl

/-! ### The receive fold -/

theorem foldl_receiveStep_fst : ∀ (msgs : List (String × DTable))
    (dt : DTable) (b : Bool),
    (msgs.foldl receiveStep (dt, b)).1 = msgs.foldl processMsg dt := by
  intro msgs
  induction msgs with
  | nil => intro dt b; rfl
  | cons m t ih =>
    intro dt b
    rw [List.foldl_cons, List.foldl_cons]
    exact ih (processMsg dt m) _

theorem foldl_receiveStep_true : ∀ (msgs : List (String × DTable))
    (x : DTable × Bool), x.2 = true → (msgs.foldl receiveStep x).2 = true := by
  intro msgs
  induction msgs with
  | nil => intro x h; exact h
  | cons m t ih =>
    intro x h
    rw [List.foldl_cons]
    refine ih _ ?_
    unfold receiveStep
    rw [h]
    rfl

theorem foldl_receiveStep_false : ∀ (msgs : List (String × DTable))
    (dt : DTable) (b : Bool), (msgs.foldl receiveStep (dt, b)).2 = false →
    b = false ∧ msgs.foldl receiveStep (dt, b) = (dt, false) := by
  intro msgs
  induction msgs with
  | nil =>
    intro dt b h
    exact ⟨h, by rw [List.foldl_nil, show b = false from h]⟩
  | cons m t ih =>
    intro dt b h
    rw [List.foldl_cons] at h
    have hb1 : (receiveStep (dt, b) m).2 = false := by
      by_contra hc
      have ht := foldl_receiveStep_true t (receiveStep (dt, b) m)
        (Bool.of_not_eq_false hc)
      rw [ht] at h
      exact Bool.noConfusion h
    have hbits : b = false ∧ processMsg dt m = dt := by
      unfold receiveStep at hb1
      simp only [Bool.or_eq_false_iff, decide_eq_false_iff_not] at hb1
      exact ⟨hb1.1, by simpa using hb1.2⟩
    obtain ⟨hb, hdt⟩ := hbits
    have hstep : receiveStep (dt, b) m = (dt, false) := by
      unfold receiveStep
      rw [hb, hdt]
      simp
    rw [List.foldl_cons, hstep]
    exact ⟨hb, (ih dt false (by rw [hstep] at h; exact h)).2⟩

theorem process_received_tables_eq_self {r : Router}
    (h : (r.process_received_tables).update_neighbors = false) :
    r.process_received_tables = r := by
  cases r with
  | mk nm dt rt mb un =>
    simp only [Router.process_received_tables] at h ⊢
    obtain ⟨hb, hfold⟩ := foldl_receiveStep_false mb dt un h
    subst hb
    rw [hfold]

theorem sendFrom_clean (g : Graph) (rs : List Router) (i : Nat)
    (h : ∀ r ∈ rs, r.update_neighbors = false) : sendFrom g rs i = rs := by
  unfold sendFrom
  cases hg : rs.get? i with
  | none => rfl
  | some sender =>
    simp [h sender (List.get?_mem hg)]

theorem foldl_fix {α β : Type} (f : α → β → α) (a : α) (l : List β)
    (h : ∀ b, f a b = a) : l.foldl f a = a := by
  induction l with
  | nil => rfl
  | cons b t ih =>
    rw [List.foldl_cons, h b]
    exact ih

theorem broadcastPhase_clean (g : Graph) (rs : List Router)
    (h : ∀ r ∈ rs, r.update_neighbors = false) : broadcastPhase g rs = rs := by
  unfold broadcastPhase
  exact foldl_fix (sendFrom g) rs (List.range rs.length)
    (fun i => sendFrom_clean g rs i h)

theorem receivePhase_idem (rs0 : List Router)
    (h : ∀ r ∈ receivePhase rs0, r.update_neighbors = false) :
    receivePhase (receivePhase rs0) = receivePhase rs0 := by
  unfold receivePhase at h ⊢
  rw [List.map_map]
  refine List.map_congr_left (fun r0 hr0 => ?_)
  have hflag := h _ (List.mem_map.mpr ⟨r0, hr0, rfl⟩)
  show Router.process_received_tables (Router.process_received_tables r0) =
    Router.process_received_tables r0
  rw [process_received_tables_eq_self hflag]
  exact process_received_tables_eq_self hflag

/-! ### Frame lemmas for receive -/

theorem dtGet_processMsg_frame {dt : DTable} {m : String × DTable}
    {d v : String} (h : dtGet (processMsg dt m) d v ≠ dtGet dt d v) :
    v = m.1 ∧ d ≠ m.1 := by
  rw [dtGet_processMsg] at h
  by_cases hcond : d ≠ m.1 ∧ v = m.1 ∧ v ∈ (dtRow dt d).map Prod.fst
  · exact ⟨hcond.2.1, hcond.1⟩
  · rw [if_neg hcond] at h
    exact absurd rfl h

theorem foldl_processMsg_frame : ∀ (msgs : List (String × DTable))
    (dt : DTable) (d v : String),
    dtGet (msgs.foldl processMsg dt) d v ≠ dtGet dt d v →
    ∃ m ∈ msgs, m.1 = v ∧ d ≠ v := by
  intro msgs
  induction msgs with
  | nil => intro dt d v h; exact absurd rfl h
  | cons m t ih =>
    intro dt d v h
    rw [List.foldl_cons] at h
    by_cases hmid : dtGet (processMsg dt m) d v = dtGet dt d v
    · have h2 : dtGet (t.foldl processMsg (processMsg dt m)) d v ≠
          dtGet (processMsg dt m) d v := by
        rw [hmid]
        exact h
      rcases ih _ d v h2 with ⟨m2, hm2, hp⟩
      exact ⟨m2, List.mem_cons.mpr (Or.inr hm2), hp⟩
    · obtain ⟨hv, hd⟩ := dtGet_processMsg_frame hmid
      exact ⟨m, List.mem_cons.mpr (Or.inl rfl), hv.symm,
        fun he => hd (he.trans hv)⟩

/-! ### Dict-assignment and append lookups -/

theorem lookup_append_of_none {α : Type} {l1 : List (String × α)}
    (l2 : List (String × α)) (k : String) (h : l1.lookup k = none) :
    (l1 ++ l2).lookup k = l2.lookup k := by
  induction l1 with
  | nil => rfl
  | cons p t ih =>
    by_cases hk : k = p.1
    · obtain ⟨a, b⟩ := p
      subst hk
      rw [lookup_cons_self] at h
      exact Option.noConfusion h
    · rw [lookup_cons_ne hk] at h
      rw [List.cons_append, lookup_cons_ne hk]
      exact ih h

theorem lookup_append_of_some {α : Type} {l1 : List (String × α)}
    (l2 : List (String × α)) {k : String} {v : α} (h : l1.lookup k = some v) :
    (l1 ++ l2).lookup k = some v := by
  induction l1 with
  | nil => exact Option.noConfusion h
  | cons p t ih =>
    by_cases hk : k = p.1
    · obtain ⟨a, b⟩ := p
      subst hk
      rw [lookup_cons_self] at h
      rw [List.cons_append, lookup_cons_self]
      exact h
    · rw [lookup_cons_ne hk] at h
      rw [List.cons_append, lookup_cons_ne hk]
      exact ih h

theorem lookup_listSet_self {α : Type} (l : List (String × α)) (k : String)
    (v : α) : (listSet l k v).lookup k = some v := by
  unfold listSet
  by_cases h : l.any (fun p => p.1 = k) = true
  · rw [if_pos h]
    rcases List.any_eq_true.mp h with ⟨p, hp, hpk⟩
    have hmem : k ∈ l.map Prod.fst :=
      List.mem_map.mpr ⟨p, hp, of_decide_eq_true hpk⟩
    rcases lookup_isSome_of_mem_keys hmem with ⟨c, hc⟩
    rw [lookup_map_keyfix (fun key c => if key = k then v else c) l k, hc]
    simp
  · rw [if_neg h]
    have hnone : l.lookup k = none := by
      refine lookup_eq_none_of_not_mem_keys (fun hmem => h ?_)
      rcases List.mem_map.mp hmem with ⟨p, hp, hpk⟩
      exact List.any_eq_true.mpr ⟨p, hp, decide_eq_true hpk⟩
    rw [lookup_append_of_none _ _ hnone, lookup_cons_self]

theorem lookup_listSet_ne {α : Type} (l : List (String × α)) (k : String)
    (v : α) {k2 : String} (h : k2 ≠ k) :
    (listSet l k v).lookup k2 = l.lookup k2 := by
  unfold listSet
  by_cases ha : l.any (fun p => p.1 = k) = true
  · rw [if_pos ha]
    rw [lookup_map_keyfix (fun key c => if key = k then v else c) l k2]
    cases hc : l.lookup k2 with
    | none => rfl
    | some c => simp [h]
  · rw [if_neg ha]
    cases hc : l.lookup k2 with
    | some c => exact lookup_append_of_some _ hc
    | none =>
      rw [lookup_append_of_none _ _ hc, lookup_cons_ne h]
      rfl

/-! ### Graph lookups and symmetry -/

theorem optmap_getD_some {α β : Type} (f : α → β) (x : α) (d : β) :
    (Option.map f (some x)).getD d = f x := rfl

theorem add_node_adjFind (g : Graph) (n a b : String) :
    (g.add_node n).adjFind a b = g.adjFind a b := by
  unfold Graph.add_node Graph.adjFind
  by_cases h : (g.adj_list.lookup n).isSome = true
  · rw [if_pos h]
  · rw [if_neg h]
    by_cases ha : a = n
    · subst ha
      have hnone : g.adj_list.lookup a = none :=
        Option.not_isSome_iff_eq_none.mp h
      rw [lookup_append_of_none _ _ hnone, lookup_cons_self, hnone]
      rfl
    · cases hl : g.adj_list.lookup a with
      | some row => rw [lookup_append_of_some _ hl]
      | none =>
        rw [lookup_append_of_none _ _ hl, lookup_cons_ne ha]
        rfl

theorem add_node_present_self (g : Graph) (n : String) :
    ((g.add_node n).adj_list.lookup n).isSome = true := by
  unfold Graph.add_node
  by_cases h : (g.adj_list.lookup n).isSome = true
  · rw [if_pos h]
    exact h
  · rw [if_neg h]
    have hnone : g.adj_list.lookup n = none :=
      Option.not_isSome_iff_eq_none.mp h
    show ((g.adj_list ++ [(n, [])]).lookup n).isSome = true
    rw [lookup_append_of_none _ _ hnone, lookup_cons_self]
    rfl

theorem add_node_present_mono {g : Graph} {k : String}
    (h : (g.adj_list.lookup k).isSome = true) (n : String) :
    ((g.add_node n).adj_list.lookup k).isSome = true := by
  unfold Graph.add_node
  by_cases hn : (g.adj_list.lookup n).isSome = true
  · rw [if_pos hn]
    exact h
  · rw [if_neg hn]
    rcases Option.isSome_iff_exists.mp h with ⟨row, hrow⟩
    show ((g.adj_list ++ [(n, [])]).lookup k).isSome = true
    rw [lookup_append_of_some _ hrow]
    rfl

theorem adjSet_present (g : Graph) (a b : String) (c : Cost) (k : String) :
    (((g.adjSet a b c).adj_list.lookup k).isSome) =
      ((g.adj_list.lookup k).isSome) := by
  unfold Graph.adjSet
  rw [lookup_map_keyfix (fun key row => if key = a then listSet row b c else row)
    g.adj_list k]
  cases g.adj_list.lookup k <;> rfl

theorem adjSet_adjFind_present (g : Graph) (a b : String) (c : Cost)
    (hpres : (g.adj_list.lookup a).isSome = true) (x y : String) :
    (g.adjSet a b c).adjFind x y =
      if x = a ∧ y = b then some c else g.adjFind x y := by
  unfold Graph.adjSet Graph.adjFind
  rw [lookup_map_keyfix (fun key row => if key = a then listSet row b c else row)
    g.adj_list x]
  by_cases hx : x = a
  · subst hx
    rcases Option.isSome_iff_exists.mp hpres with ⟨row, hrow⟩
    rw [hrow, optmap_getD_some, if_pos rfl]
    by_cases hy : y = b
    · subst hy
      rw [if_pos ⟨rfl, rfl⟩]
      exact lookup_listSet_self row y c
    · rw [if_neg (by tauto)]
      exact lookup_listSet_ne row b c hy
  · rw [if_neg (by tauto)]
    cases hl : g.adj_list.lookup x with
    | none => rfl
    | some row => simp [hx]

theorem lookup_filter_ne_key (l : List (String × Cost)) (b y : String) :
    (l.filter (fun q => q.1 ≠ b)).lookup y =
      if y = b then none else l.lookup y := by
  induction l with
  | nil => by_cases hy : y = b <;> simp [hy]
  | cons q t ih =>
    by_cases hq : q.1 = b
    · rw [List.filter_cons_of_neg (by simp [hq]), ih]
      by_cases hy : y = b
      · rw [if_pos hy, if_pos hy]
      · rw [if_neg hy, if_neg hy, lookup_cons_ne (fun he => hy (he.trans hq))]
    · rw [List.filter_cons_of_pos (by simp [hq])]
      by_cases hy : y = q.1
      · obtain ⟨a2, c2⟩ := q
        subst hy
        rw [lookup_cons_self, lookup_cons_self, if_neg (by simpa using hq)]
      · rw [lookup_cons_ne hy, lookup_cons_ne hy, ih]

theorem adjDel_adjFind (g : Graph) (a b x y : String) :
    (g.adjDel a b).adjFind x y =
      if x = a ∧ y = b then none else g.adjFind x y := by
  unfold Graph.adjDel Graph.adjFind
  rw [lookup_map_keyfix
    (fun key row => if key = a then row.filter (fun q => q.1 ≠ b) else row)
    g.adj_list x]
  by_cases hx : x = a
  · subst hx
    cases hl : g.adj_list.lookup x with
    | none =>
      by_cases hy : x = x ∧ y = b
      · rw [if_pos hy]
        rfl
      · rw [if_neg hy]
        rfl
    | some row =>
      rw [optmap_getD_some, if_pos rfl, lookup_filter_ne_key row b y]
      by_cases hy : y = b
      · rw [if_pos hy, if_pos ⟨rfl, hy⟩]
      · rw [if_neg hy, if_neg (by tauto)]
        rfl
  · rw [if_neg (by tauto)]
    cases hl : g.adj_list.lookup x with
    | none => rfl
    | some row => simp [hx]

theorem add_edge_adjFind (g : Graph) (n1 n2 : String) (c : Cost)
    (x y : String) :
    (g.add_edge n1 n2 c).adjFind x y =
      if (x = n1 ∧ y = n2) ∨ (x = n2 ∧ y = n1) then some c
      else g.adjFind x y := by
  unfold Graph.add_edge
  have hp1 : (((g.add_node n1).add_node n2).adj_list.lookup n1).isSome = true :=
    add_node_present_mono (add_node_present_self g n1) n2
  have hp2 : (((g.add_node n1).add_node n2).adj_list.lookup n2).isSome = true :=
    add_node_present_self (g.add_node n1) n2
  have hp2b : ((((g.add_node n1).add_node n2).adjSet n1 n2 c).adj_list.lookup
      n2).isSome = true := by
    rw [adjSet_present]
    exact hp2
  rw [adjSet_adjFind_present _ n2 n1 c hp2b x y,
    adjSet_adjFind_present _ n1 n2 c hp1 x y,
    add_node_adjFind, add_node_adjFind]
  by_cases h21 : x = n2 ∧ y = n1
  · by_cases h12 : x = n1 ∧ y = n2
    · rw [if_pos h21, if_pos (Or.inl h12)]
    · rw [if_pos h21, if_pos (Or.inr h21)]
  · by_cases h12 : x = n1 ∧ y = n2
    · rw [if_neg h21, if_pos h12, if_pos (Or.inl h12)]
    · rw [if_neg h21, if_neg h12, if_neg (by tauto)]

/-- The symmetry invariant of the topology: both directions agree, and one
direction is present exactly when the other is. -/
def Symm (g : Graph) : Prop := ∀ a b, g.adjFind a b = g.adjFind b a

theorem symm_empty : Symm Graph.empty := fun _ _ => rfl

theorem symm_add_node {g : Graph} (h : Symm g) (n : String) :
    Symm (g.add_node n) := by
  intro a b
  rw [add_node_adjFind, add_node_adjFind]
  exact h a b

theorem symm_add_edge {g : Graph} (h : Symm g) (n1 n2 : String) (c : Cost) :
    Symm (g.add_edge n1 n2 c) := by
  intro a b
  rw [add_edge_adjFind, add_edge_adjFind]
  by_cases h1 : (a = n1 ∧ b = n2) ∨ (a = n2 ∧ b = n1)
  · rw [if_pos h1, if_pos (by tauto)]
  · rw [if_neg h1, if_neg (by tauto), h a b]

theorem symm_adjDel2 {g : Graph} (h : Symm g) (a0 b0 : String) :
    Symm ((g.adjDel a0 b0).adjDel b0 a0) := by
  intro a b
  rw [adjDel_adjFind, adjDel_adjFind, adjDel_adjFind, adjDel_adjFind]
  by_cases h1 : a = b0 ∧ b = a0
  · by_cases h2 : a = a0 ∧ b = b0
    · rw [if_pos h1, if_pos (⟨h2.2, h2.1⟩ : b = b0 ∧ a = a0)]
    · rw [if_pos h1, if_neg (fun hc => h2 ⟨hc.2, hc.1⟩), if_pos ⟨h1.2, h1.1⟩]
  · by_cases h2 : a = a0 ∧ b = b0
    · rw [if_neg h1, if_pos h2, if_pos ⟨h2.2, h2.1⟩]
    · rw [if_neg h1, if_neg h2, if_neg (fun hc => h2 ⟨hc.2, hc.1⟩),
        if_neg (fun hc => h1 ⟨hc.2, hc.1⟩), h a b]

/-- One topology operation as `main` performs them: a node declaration
(`add_node`), a link insertion/update (`add_edge`, cost ≠ `INF`), or the
update-event removal (delete both directions when `node2` is a key of
`adj_list.get(node1, {})`). -/
inductive TopOp where
  | node (n : String)
  | edge (a b : String) (c : Cost)
  | remove (a b : String)

def TopOp.apply (g : Graph) : TopOp → Graph
  | TopOp.node n => g.add_node n
  | TopOp.edge a b c => g.add_edge a b c
  | TopOp.remove a b =>
    if (g.adjFind a b).isSome then (g.adjDel a b).adjDel b a else g

/-- A whole history of topology operations, starting from the empty graph. -/
def runOps (ops : List TopOp) : Graph :=
  ops.foldl TopOp.apply Graph.empty

theorem symm_apply {g : Graph} (h : Symm g) (op : TopOp) :
    Symm (TopOp.apply g op) := by
  cases op with
  | node n => exact symm_add_node h n
  | edge a b c => exact symm_add_edge h a b c
  | remove a b =>
    show Symm (if (g.adjFind a b).isSome then (g.adjDel a b).adjDel b a else g)
    by_cases hp : (g.adjFind a b).isSome = true
    · rw [if_pos hp]
      exact symm_adjDel2 h a b
    · rw [if_neg hp]
      exact h

/-! ### Concrete tables used in example instantiations
(the initial tables of `X` and `Y` in the 3-node line `X-Y` cost 2,
`Y-Z` cost 1). -/

def dtX0 : DTable :=
  [("Y", [("Y", Cost.fin 2), ("Z", Cost.inf)]),
   ("Z", [("Y", Cost.inf), ("Z", Cost.inf)])]

def dtY0 : DTable :=
  [("X", [("X", Cost.fin 2), ("Z", Cost.inf)]),
   ("Z", [("X", Cost.inf), ("Z", Cost.fin 1)])]

/-! ### The claims -/

/-- C1: the claim says the mailbox is empty after every receive phase.  The
code disagrees: `process_received_tables` returns the mailbox untouched (it is
reset only by `process_after_update`), and concretely, after the initial
convergence of the two-node topology `X-Y` (cost 2) both routers still hold
one pending message. -/
theorem c1_mailbox_not_cleared :
    (∀ r : Router,
      (r.process_received_tables).updates_to_process = r.updates_to_process)
    ∧ (let g := buildGraph ["X", "Y"] [("X", "Y", Cost.fin 2)]
       let p := initialConverge g (initRouters g ["X", "Y"])
       p.2.map (fun r => r.updates_to_process.length) = [1, 1]) :=
  ⟨fun _ => rfl, by decide⟩

/-- C2: processing one message `(source, senderTable)` rewrites, for every
destination `d ≠ source`, exactly the via-column `source` of row `d` with
`candidate = ownDistances[source][source] + min(senderTable[d].values())`
(`INF`-absorbing); every other via-column is untouched, and the dirty flag is
raised by the message exactly when some entry changed. -/
theorem c2_relaxation (dt T : DTable) (s d : String)
    (hnd : (dt.map Prod.fst).Nodup)
    (hrows : ∀ p ∈ dt, ((p.2 : Row).map Prod.fst).Nodup)
    (hds : d ≠ s) (hs : s ∈ (dtRow dt d).map Prod.fst) (b : Bool) :
    dtGet (processMsg dt (s, T)) d s = relaxCost dt s T d
    ∧ (∀ v, v ≠ s → dtGet (processMsg dt (s, T)) d v = dtGet dt d v)
    ∧ ((receiveStep (dt, b) (s, T)).2 = true ↔
        b = true ∨ ∃ d2 v2, dtGet (processMsg dt (s, T)) d2 v2 ≠ dtGet dt d2 v2) := by
  refine ⟨?_, ?_, ?_⟩
  · rw [dtGet_processMsg, if_pos ⟨hds, rfl, hs⟩]
  · intro v hv
    rw [dtGet_processMsg, if_neg (fun hc => hv hc.2.1)]
  · show (b || decide (processMsg dt (s, T) ≠ dt)) = true ↔ _
    rw [Bool.or_eq_true, decide_eq_true_eq]
    exact or_congr Iff.rfl (processMsg_ne_iff dt (s, T) hnd hrows)

/-- C2, instantiated: in the 3-node line, `X` processing `Y`'s initial table
writes the candidate into `(Z, via Y)` and leaves `(Z, via Z)` alone. -/
theorem c2_relaxation_witness :
    dtGet (processMsg dtX0 ("Y", dtY0)) "Z" "Y" = relaxCost dtX0 "Y" dtY0 "Z"
    ∧ dtGet (processMsg dtX0 ("Y", dtY0)) "Z" "Z" = dtGet dtX0 "Z" "Z" :=
  have h := c2_relaxation dtX0 dtY0 "Y" "Z" (by decide) (by decide)
    (by decide) (by decide) false
  ⟨h.1, h.2.1 "Z" (by decide)⟩

/-- C3, counterexample: the reported routing table can be stale.  In the
4-node line `W-X-Y-Z` (all costs 1), after the capped initial convergence
`W`'s reported route to `Z` still says `INF` although the minimum of the
current distance-table row is 3 — the routing table was last rebuilt before
the final receive phase. -/
theorem c3_stale_routing_counterexample :
    (let g := buildGraph ["W", "X", "Y", "Z"]
       [("W", "X", Cost.fin 1), ("X", "Y", Cost.fin 1), ("Y", "Z", Cost.fin 1)]
     let p := initialConverge g (initRouters g ["W", "X", "Y", "Z"])
     (rtOf p.2 "W" "Z").map Prod.fst = some Cost.inf
     ∧ cMinList ((dtRow (dtOf p.2 "W") "Z").map Prod.snd) = Cost.fin 3
     ∧ (rtOf p.2 "W" "Z").map Prod.fst ≠
         some (cMinList ((dtRow (dtOf p.2 "W") "Z").map Prod.snd))) := by
  decide

/-- C3, amended: routing-table consistency holds at the moment the table is
rebuilt (inside `send_updates`, before broadcasting): for every destination
row, the stored cost is the minimum of that row's via-columns, an all-`INF`
row keeps the `'INF'` marker, and otherwise the next hop is a via achieving
the minimum that is least (in string order) among all vias achieving it. -/
theorem c3_routing_consistent_at_rebuild (r : Router) (d : String) (row : Row)
    (hnd : (r.distance_table.map Prod.fst).Nodup)
    (hmem : (d, row) ∈ r.distance_table) :
    ∃ c h,
      (r.create_routing_table).routing_table.lookup d = some (c, h)
      ∧ c = cMinList (row.map Prod.snd)
      ∧ (c = Cost.inf → h = "INF")
      ∧ (c ≠ Cost.inf →
          (h, c) ∈ row ∧ ∀ q ∈ row, q.2 = c → strLe h q.1 = true) := by
  obtain ⟨h1, h2, h3⟩ := rtRow_spec row
  refine ⟨(rtRow row).1, (rtRow row).2, ?_, h1, h2, h3⟩
  show (r.distance_table.map (fun p => (p.1, rtRow p.2))).lookup d =
    some ((rtRow row).1, (rtRow row).2)
  rw [lookup_map_keyfix (fun _ row => rtRow row) r.distance_table d,
    lookup_eq_some_of_mem_nodup hnd hmem]
  rfl

/-- C3, amended, instantiated at `X`'s converged table of the 3-node line. -/
theorem c3_routing_consistent_at_rebuild_witness :
    ∃ c h,
      ((⟨"X", [("Y", [("Y", Cost.fin 2), ("Z", Cost.inf)]),
          ("Z", [("Y", Cost.fin 3), ("Z", Cost.inf)])], [], [],
          false⟩ : Router).create_routing_table).routing_table.lookup "Z" =
        some (c, h)
      ∧ c = cMinList ([("Y", Cost.fin 3), ("Z", Cost.inf)].map Prod.snd)
      ∧ (c = Cost.inf → h = "INF")
      ∧ (c ≠ Cost.inf →
          (h, c) ∈ [("Y", Cost.fin 3), ("Z", Cost.inf)]
          ∧ ∀ q ∈ [("Y", Cost.fin 3), ("Z", Cost.inf)],
              q.2 = c → strLe h q.1 = true) :=
  c3_routing_consistent_at_rebuild _ "Z" _ (by decide) (by decide)

/-- C4, counterexample: the initial loop does not always run two rounds.  On
the two-node topology `X-Y` (cost 2) nothing changes in round 1, so the loop
exits with `t = 1`. -/
theorem c4_single_round_counterexample :
    (let g := buildGraph ["X", "Y"] [("X", "Y", Cost.fin 2)]
     (initialConverge g (initRouters g ["X", "Y"])).1 = 1
     ∧ (initialConverge g (initRouters g ["X", "Y"])).1 ≠ 2) := by
  decide

/-- C4, amended: the initial loop runs at most two post-initialization
rounds; it reaches `t = 2` exactly when some agent is dirty at the start and
some agent is still dirty after the first round. -/
theorem c4_round_cap (g : Graph) (rs : List Router) :
    (initialConverge g rs).1 ≤ 2
    ∧ ((initialConverge g rs).1 = 2 ↔
        anyDirty rs = true ∧ anyDirty (doRound g rs) = true) := by
  by_cases h1 : anyDirty rs = true <;>
    by_cases h2 : anyDirty (doRound g rs) = true <;>
      simp [initialConverge, h1, h2]

/-- C4, amended, instantiated on the 3-node line (both rounds dirty, so
`t = 2`). -/
theorem c4_round_cap_witness :
    (let g := buildGraph ["X", "Y", "Z"]
       [("X", "Y", Cost.fin 2), ("Y", "Z", Cost.fin 1)]
     let rs := initRouters g ["X", "Y", "Z"]
     (initialConverge g rs).1 ≤ 2
     ∧ ((initialConverge g rs).1 = 2 ↔
         anyDirty rs = true ∧ anyDirty (doRound g rs) = true)) :=
  c4_round_cap _ _

/-- C5: on the 3-node line (`X-Y` cost 2, `Y-Z` cost 1, no `X-Z` link), the
routing tables reported after initial convergence say `X → Z` via `Y` at
cost 3, `Z → X` via `Y` at cost 3, and `Y → X` via `X` at cost 2. -/
theorem c5_line_topology_routes :
    (let g := buildGraph ["X", "Y", "Z"]
       [("X", "Y", Cost.fin 2), ("Y", "Z", Cost.fin 1)]
     let p := initialConverge g (initRouters g ["X", "Y", "Z"])
     rtOf p.2 "X" "Z" = some (Cost.fin 3, "Y")
     ∧ rtOf p.2 "Z" "X" = some (Cost.fin 3, "Y")
     ∧ rtOf p.2 "Y" "X" = some (Cost.fin 2, "X")) := by
  decide

/-- C6: idempotence at a fixed point.  If after a receive phase no agent's
DirtyFlag is set, one more full round (all broadcast, then all receive)
leaves every agent — distance table and routing table included — exactly as
it was. -/
theorem c6_fixed_point_idempotent (g : Graph) (rs0 : List Router)
    (h : ∀ r ∈ receivePhase rs0, r.update_neighbors = false) :
    doRound g (receivePhase rs0) = receivePhase rs0 := by
  unfold doRound
  rw [broadcastPhase_clean g _ h]
  exact receivePhase_idem rs0 h

/-- C6, instantiated: the two-node topology is at a fixed point after its
first round, and one more round changes nothing. -/
theorem c6_fixed_point_idempotent_witness :
    (let g := buildGraph ["X", "Y"] [("X", "Y", Cost.fin 2)]
     let rs0 := broadcastPhase g (initRouters g ["X", "Y"])
     doRound g (receivePhase rs0) = receivePhase rs0) :=
  c6_fixed_point_idempotent _ _ (by decide)

/-- C7, counterexample: the dirty flag is not an if-and-only-if.  A router
that is already dirty and whose table is untouched by the reset stays dirty:
`process_after_update` only ever sets the flag, it never clears it. -/
theorem c7_dirty_iff_counterexample :
    (let g := buildGraph ["A", "B"] [("A", "B", Cost.fin 1)]
     let r : Router := ⟨"A", [("B", [("B", Cost.fin 1)])], [], [], true⟩
     (Router.process_after_update g r).distance_table = r.distance_table
     ∧ (Router.process_after_update g r).update_neighbors = true) := by
  decide

/-- C7, amended: after `process_after_update`, every entry whose via is a
current neighbour holds the live direct-link cost, every other entry is
`INF`, the mailbox is discarded, and the flag is set iff the table changed OR
it was already set (the reset never clears a dirty flag). -/
theorem c7_reset_description (g : Graph) (r : Router) :
    (∀ d v, v ∈ (dtRow r.distance_table d).map Prod.fst →
      dtGet (Router.process_after_update g r).distance_table d v =
        if (g.get_neighbors r.name).contains v then g.adjGet r.name v
        else Cost.inf)
    ∧ (Router.process_after_update g r).updates_to_process = []
    ∧ ((Router.process_after_update g r).update_neighbors = true ↔
        ((Router.process_after_update g r).distance_table ≠ r.distance_table
          ∨ r.update_neighbors = true)) := by
  have hdt : (Router.process_after_update g r).distance_table =
      r.distance_table.map (fun p => (p.1, p.2.map (fun q => (q.1,
        if (g.get_neighbors r.name).contains q.1 then
          (if g.adjGet r.name q.1 ≠ Cost.inf then g.adjGet r.name q.1
           else Cost.inf)
        else Cost.inf)))) := rfl
  refine ⟨?_, rfl, ?_⟩
  · intro d v hv
    unfold dtGet
    rw [hdt]
    unfold dtRow
    rw [lookup_map_keyfix
      (fun _ row => row.map (fun q => (q.1,
        if (g.get_neighbors r.name).contains q.1 then
          (if g.adjGet r.name q.1 ≠ Cost.inf then g.adjGet r.name q.1
           else Cost.inf)
        else Cost.inf)))
      r.distance_table d]
    cases hl : r.distance_table.lookup d with
    | none =>
      unfold dtRow at hv
      rw [hl] at hv
      simp at hv
    | some row =>
      unfold dtRow at hv
      rw [hl] at hv
      rw [optmap_getD_some]
      rw [lookup_map_keyfix
        (fun k _ => if (g.get_neighbors r.name).contains k then
            (if g.adjGet r.name k ≠ Cost.inf then g.adjGet r.name k
             else Cost.inf)
          else Cost.inf) row v]
      rcases lookup_isSome_of_mem_keys (by simpa using hv) with ⟨c, hc⟩
      rw [hc, optmap_getD_some]
      by_cases hnb : (g.get_neighbors r.name).contains v = true
      · rw [if_pos hnb, if_pos hnb]
        by_cases hinf : g.adjGet r.name v = Cost.inf
        · rw [if_neg (not_not_intro hinf), hinf]
        · rw [if_pos hinf]
      · rw [if_neg hnb, if_neg hnb]
  · have hun : (Router.process_after_update g r).update_neighbors =
        if (Router.process_after_update g r).distance_table ≠ r.distance_table
        then true else r.update_neighbors := rfl
    rw [hun]
    by_cases hd : (Router.process_after_update g r).distance_table ≠
        r.distance_table
    · rw [if_pos hd]
      exact ⟨fun _ => Or.inl hd, fun _ => rfl⟩
    · rw [if_neg hd]
      constructor
      · exact fun h2 => Or.inr h2
      · rintro (h2 | h2)
        · exact absurd h2 hd
        · exact h2

/-- C7, amended, instantiated on a one-link topology. -/
theorem c7_reset_description_witness :
    dtGet (Router.process_after_update
        (buildGraph ["A", "B"] [("A", "B", Cost.fin 1)])
        ⟨"A", [("B", [("B", Cost.fin 1)])], [], [], true⟩).distance_table
        "B" "B" =
      (if ((buildGraph ["A", "B"] [("A", "B", Cost.fin 1)]).get_neighbors
          "A").contains "B" then
        (buildGraph ["A", "B"] [("A", "B", Cost.fin 1)]).adjGet "A" "B"
      else Cost.inf)
    ∧ ((Router.process_after_update
        (buildGraph ["A", "B"] [("A", "B", Cost.fin 1)])
        ⟨"A", [("B", [("B", Cost.fin 1)])], [], [], true⟩).update_neighbors =
          true ↔
        ((Router.process_after_update
            (buildGraph ["A", "B"] [("A", "B", Cost.fin 1)])
            ⟨"A", [("B", [("B", Cost.fin 1)])], [], [], true⟩).distance_table ≠
            [("B", [("B", Cost.fin 1)])]
          ∨ true = true)) :=
  have h := c7_reset_description (buildGraph ["A", "B"] [("A", "B", Cost.fin 1)])
    ⟨"A", [("B", [("B", Cost.fin 1)])], [], [], true⟩
  ⟨h.1 "B" "B" (by decide), h.2.2⟩

/-- C8: the topology stays symmetric under every sequence of operations the
program performs (node declarations, `add_edge` insertions, update-event
removals): both directions of any pair carry the same optional cost, so an
entry exists in one direction exactly when it exists in the other. -/
theorem c8_topology_symmetric (ops : List TopOp) (a b : String) :
    (runOps ops).adjFind a b = (runOps ops).adjFind b a := by
  have key : ∀ (l : List TopOp) (g : Graph), Symm g →
      Symm (l.foldl TopOp.apply g) := by
    intro l
    induction l with
    | nil => exact fun g hg => hg
    | cons op t ih =>
      intro g hg
      rw [List.foldl_cons]
      exact ih _ (symm_apply hg op)
  exact key ops Graph.empty symm_empty a b

/-- C9: an `UPDATE` line naming undeclared nodes is accepted: a finite-cost
line inserts symmetric topology entries for both names (creating their
adjacency rows), a removal line for an absent link is a no-op, and — run on
the two-router topology with updates `X Q 5` (node `Q` undeclared) and
`Y W -1` (no such link) — the simulation still has exactly the routers `X`
and `Y`, whose post-update routing tables are the expected ones. -/
theorem c9_unknown_update_nodes :
    (∀ (g : Graph) (a b : String) (k : Int),
      (applyUpdate g (a, b, Cost.fin k)).adjFind a b = some (Cost.fin k)
      ∧ (applyUpdate g (a, b, Cost.fin k)).adjFind b a = some (Cost.fin k)
      ∧ ((applyUpdate g (a, b, Cost.fin k)).adj_list.lookup a).isSome = true
      ∧ ((applyUpdate g (a, b, Cost.fin k)).adj_list.lookup b).isSome = true)
    ∧ (∀ (g : Graph) (a b : String), g.adjFind a b = none →
        applyUpdate g (a, b, Cost.inf) = g)
    ∧ (let g := buildGraph ["X", "Y"] [("X", "Y", Cost.fin 2)]
       let rs := (initialConverge g (initRouters g ["X", "Y"])).2
       let g2 := applyUpdates g [("X", "Q", Cost.fin 5), ("Y", "W", Cost.inf)]
       let rs2 := postUpdate g2 rs
       g2.adjFind "X" "Q" = some (Cost.fin 5)
       ∧ g2.adjFind "Q" "X" = some (Cost.fin 5)
       ∧ (g2.adj_list.lookup "Q").isSome = true
       ∧ rs2.map (fun r => r.name) = ["X", "Y"]
       ∧ applyUpdate (applyUpdate g ("X", "Q", Cost.fin 5))
           ("Y", "W", Cost.inf) = applyUpdate g ("X", "Q", Cost.fin 5)
       ∧ rtOf rs2 "X" "Y" = some (Cost.fin 2, "Y")
       ∧ rtOf rs2 "Y" "X" = some (Cost.fin 2, "X")) := by
  refine ⟨?_, ?_, by decide⟩
  · intro g a b k
    have hfin : applyUpdate g (a, b, Cost.fin k) = g.add_edge a b (Cost.fin k) := by
      unfold applyUpdate
      rw [if_neg (by simp)]
    rw [hfin]
    refine ⟨?_, ?_, ?_, ?_⟩
    · rw [add_edge_adjFind]
      exact if_pos (Or.inl ⟨rfl, rfl⟩)
    · rw [add_edge_adjFind]
      exact if_pos (Or.inr ⟨rfl, rfl⟩)
    · show (((((g.add_node a).add_node b).adjSet a b (Cost.fin k)).adjSet b a
        (Cost.fin k)).adj_list.lookup a).isSome = true
      rw [adjSet_present, adjSet_present]
      exact add_node_present_mono (add_node_present_self g a) b
    · show (((((g.add_node a).add_node b).adjSet a b (Cost.fin k)).adjSet b a
        (Cost.fin k)).adj_list.lookup b).isSome = true
      rw [adjSet_present, adjSet_present]
      exact add_node_present_self (g.add_node a) b
  · intro g a b h
    unfold applyUpdate
    rw [if_pos rfl, if_neg (by simp [h])]

/-- C9, instantiated: inserting an edge between fresh names on the empty
topology, and removing an absent link. -/
theorem c9_unknown_update_nodes_witness :
    (applyUpdate Graph.empty ("A", "B", Cost.fin 7)).adjFind "A" "B" =
      some (Cost.fin 7)
    ∧ applyUpdate Graph.empty ("A", "B", Cost.inf) = Graph.empty :=
  ⟨(c9_unknown_update_nodes.1 Graph.empty "A" "B" 7).1,
   c9_unknown_update_nodes.2.1 Graph.empty "A" "B" (by decide)⟩

/-- C10: a receive phase only ever writes entries `(d, v)` for which some
pending message has source `v` and `d ≠ v`; in particular diagonal entries
`(n, n)` — the stored direct-link costs — are never changed by receiving. -/
theorem c10_receive_frame (r : Router) :
    (∀ d v, dtGet (r.process_received_tables).distance_table d v ≠
        dtGet r.distance_table d v →
      ∃ m ∈ r.updates_to_process, m.1 = v ∧ d ≠ v)
    ∧ (∀ n, dtGet (r.process_received_tables).distance_table n n =
        dtGet r.distance_table n n) := by
  have hfst : (r.process_received_tables).distance_table =
      r.updates_to_process.foldl processMsg r.distance_table := by
    show (r.updates_to_process.foldl receiveStep
      (r.distance_table, r.update_neighbors)).1 = _
    exact foldl_receiveStep_fst r.updates_to_process r.distance_table
      r.update_neighbors
  constructor
  · intro d v h
    rw [hfst] at h
    exact foldl_processMsg_frame r.updates_to_process r.distance_table d v h
  · intro n
    by_contra hne
    rw [hfst] at hne
    rcases foldl_processMsg_frame r.updates_to_process r.distance_table n n hne
      with ⟨m, _, _, hnn⟩
    exact hnn rfl

/-- C10, instantiated: the change `X` makes to `(Z, via Y)` while processing
its mailbox traces back to the pending message from `Y`. -/
theorem c10_receive_frame_witness :
    ∃ m ∈ (⟨"X", dtX0, [], [("Y", dtY0)], false⟩ : Router).updates_to_process,
      m.1 = "Y" ∧ "Z" ≠ "Y" :=
  (c10_receive_frame ⟨"X", dtX0, [], [("Y", dtY0)], false⟩).1 "Z" "Y" (by decide)

end DV
